import Mathlib

/-!
Shallow embedding of delete-stall-git-repos (src/main.rs).

The program scans the immediate children of a root directory, opens each as a
git repository, prints its working-tree status, runs a revwalk seeded with the
tips of all local branches and hiding the tips of all remote-tracking
branches, and collects the repositories whose walk is empty as "clean".  It
then offers to delete the clean ones.

The embedding below follows main.rs line by line: fallible libgit2 calls are
Except-valued fields of the repository model, console lines are a message
log, and the revwalk is the set of commits reachable from the pushed tips and
not reachable from any hidden tip.
-/

namespace DelStall

/-- The commit DAG of one repository: each commit id maps to the list of its
parent ids (a merge commit has several).  The strict-decrease condition
`parents_lt` makes the graph acyclic. -/
structure CommitGraph where
  parents : Nat → List Nat
  parents_lt : ∀ c p, p ∈ parents c → p < c

/-- Bounded ancestor search: with fuel `f`, decide whether `x` is `c` itself
or an ancestor of `c` at parent-depth at most `f`.  Because parents strictly
decrease, fuel `c` always suffices from commit `c`. -/
def reachesFuel (g : CommitGraph) : Nat → Nat → Nat → Bool
  | 0, c, x => c == x
  | f + 1, c, x => c == x || (g.parents c).any (fun p => reachesFuel g f p x)

/-- `x` is reachable from `c`: `x` is `c` itself or a transitive ancestor. -/
def reaches (g : CommitGraph) (c x : Nat) : Bool := reachesFuel g c c x

/-- Reachability over the commit DAG, as a proposition: a commit reaches
itself, and reaches whatever one of its parents reaches. -/
inductive Reaches (g : CommitGraph) : Nat → Nat → Prop
  | refl (c : Nat) : Reaches g c c
  | step (c p x : Nat) : p ∈ g.parents c → Reaches g p x → Reaches g c x

/-- An upper bound for everything reachable from any of the given tips. -/
def maxTip (l : List Nat) : Nat := l.foldr Nat.max 0

/-- The set of commits yielded by a libgit2 revwalk seeded with `push` and
with `hide` hidden: every commit reachable from a pushed tip and not
reachable from any hidden tip.  (The walk's enumeration order is not
documented and the program only inspects whether the walk is empty, so the
output is enumerated in ascending id order.) -/
def revwalkOutput (g : CommitGraph) (push hide : List Nat) : List Nat :=
  (List.range (maxTip push + 1)).filter
    (fun x => push.any (fun t => reaches g t x) && !(hide.any (fun t => reaches g t x)))

/-- A git-layer error (a `git2::Error` value).  The constructors record the
call site the error came from; `objectError` carries the object id whose
lookup failed. -/
inductive GitError
  | statusError
  | revwalkError
  | branchListError
  | branchItemError
  | objectError (oid : Nat)
deriving DecidableEq

/-- One entry of `repo.statuses(...)`: a status classification bitmask and
the entry path (`entry.path()` can be absent). -/
structure StatusEntry where
  status : Nat
  path : Option String
deriving DecidableEq

/-- One branch as produced by `repo.branches(...)`: `branch.get().target()`
is the tip commit id when the reference resolves directly to one. -/
structure Branch where
  target : Option Nat
deriving DecidableEq

/-- The model of one opened repository: the commit graph together with the
results of the fallible libgit2 calls main.rs performs on it.  The branch
lists model `repo.branches(..)` (outer `Except`) whose items are themselves
fallible (the per-item `branch?`).  `corrupt oid = true` makes
`repo.find_commit(oid)` (and `revwalk.push`/`hide` of that oid) fail. -/
structure RepoState where
  graph : CommitGraph
  statusesResult : Except GitError (List StatusEntry)
  revwalkResult : Except GitError Unit
  localBranchesResult : Except GitError (List (Except GitError Branch))
  remoteBranchesResult : Except GitError (List (Except GitError Branch))
  corrupt : Nat → Bool

/-- Console lines the scan loop prints, kept as structured data.  Colors and
exact wording are irrelevant to the claims. -/
inductive Msg
  | notAGitRepo (path : String)
  | noChangesIn (path : String)
  | thereAreChanges (entries : List StatusEntry)
  | unpushedCommitsIn (path : String)
  | cleanRepositoryFound (path : String)
deriving DecidableEq

/-- The branch loops of main.rs lines 69-84: for each branch item, `branch?`
propagates the item error, an unresolved tip (`target() == None`) is skipped
silently, and a resolved tip is pushed/hidden, which fails on a corrupt
object.  Returns the list of tips in branch order. -/
def addTips (corrupt : Nat → Bool) : List (Except GitError Branch) → Except GitError (List Nat)
  | [] => .ok []
  | .error e :: _ => .error e
  | .ok b :: rest =>
    match b.target with
    | none => addTips corrupt rest
    | some oid =>
      if corrupt oid then .error (.objectError oid)
      else
        match addTips corrupt rest with
        | .error e => .error e
        | .ok l => .ok (oid :: l)

/-- The verdict of one candidate evaluation. -/
inductive EvalOutcome
  | clean
  | hasUnpushedCommits
deriving DecidableEq

/-- main.rs lines 49-99 for one opened repository at display path `p`:
compute the statuses (line 54, `?`), print either the no-changes line or the
change list (lines 56-65; note the non-empty case does NOT skip the
candidate), create the revwalk (line 68, `?`), push all resolved local tips
(69-75), hide all resolved remote tips (78-84), then test the walk: the
first yielded commit is looked up via `find_commit` (`?`) and makes the
repository unclean; an empty walk makes it clean.  Every `?` becomes an
`Except.error` result. -/
def evalOpenedRepo (p : String) (r : RepoState) : Except GitError (List Msg × EvalOutcome) :=
  match r.statusesResult with
  | .error e => .error e
  | .ok statuses =>
    let statusMsg := if statuses.isEmpty then Msg.noChangesIn p
                     else Msg.thereAreChanges statuses
    match r.revwalkResult with
    | .error e => .error e
    | .ok _ =>
      match r.localBranchesResult with
      | .error e => .error e
      | .ok localItems =>
        match addTips r.corrupt localItems with
        | .error e => .error e
        | .ok push =>
          match r.remoteBranchesResult with
          | .error e => .error e
          | .ok remoteItems =>
            match addTips r.corrupt remoteItems with
            | .error e => .error e
            | .ok hide =>
              match revwalkOutput r.graph push hide with
              | [] => .ok ([statusMsg], .clean)
              | oid :: _ =>
                if r.corrupt oid then .error (.objectError oid)
                else .ok ([statusMsg], .hasUnpushedCommits)

/-- One directory entry of the scanned root, as the scan loop sees it:
either not a directory (skipped, line 32), a directory whose
`canonicalize()` fails (line 36, `?`), a directory that is not a git
repository (`Repository::open` fails, lines 38-46), or an opened repository
with its canonical display path. -/
inductive Candidate
  | notADir
  | canonicalizeFails (ioMsg : String)
  | openFails (path : String)
  | repo (path : String) (r : RepoState)

/-- An error that escapes the scan loop body (and hence, through `?`, aborts
`main`). -/
inductive ScanError
  | canonicalizeError
  | gitError (e : GitError)
deriving DecidableEq

/-- The body of the `while let` loop of main.rs lines 30-103 for one entry:
returns the console lines it prints and, for a clean repository, the path it
pushes onto `repositories`; a `?` failure is an `Except.error`. -/
def processCandidate : Candidate → Except ScanError (List Msg × Option String)
  | .notADir => .ok ([], none)
  | .canonicalizeFails _ => .error .canonicalizeError
  | .openFails p => .ok ([Msg.notAGitRepo p], none)
  | .repo p r =>
    match evalOpenedRepo p r with
    | .error e => .error (.gitError e)
    | .ok (msgs, .clean) => .ok (msgs ++ [Msg.cleanRepositoryFound p], some p)
    | .ok (msgs, .hasUnpushedCommits) => .ok (msgs ++ [Msg.unpushedCommitsIn p], none)

/-- The whole scan loop over the directory entries, in order: accumulates
console lines and the `repositories` list; the first `?` failure aborts the
loop (and `main`) with that error. -/
def scanDirs : List Candidate → Except ScanError (List Msg × List String)
  | [] => .ok ([], [])
  | c :: rest =>
    match processCandidate c with
    | .error e => .error e
    | .ok (msgs, cleanPath) =>
      match scanDirs rest with
      | .error e => .error e
      | .ok (msgs2, cleans) => .ok (msgs ++ msgs2, cleanPath.toList ++ cleans)

/-- An error that aborts `main` (a non-zero process exit). -/
inductive FatalError
  | rootListingError
  | scanError (e : ScanError)
  | promptError
deriving DecidableEq

/-- main.rs line 27 + the loop: `fs::read_dir(&directory).await?` is modelled
by an optional entry list — `none` is a failed root listing and aborts the
run before any candidate is processed. -/
def mainScan : Option (List Candidate) → Except FatalError (List Msg × List String)
  | none => .error .rootListingError
  | some cands =>
    match scanDirs cands with
    | .error e => .error (.scanError e)
    | .ok r => .ok r

/-- The three entries of the action menu (main.rs lines 119-123). -/
inductive PromptAnswer
  | deleteAll
  | selectRepos
  | cancel
deriving DecidableEq

/-- The operator's interactive input: the result of the `Select` prompt and,
when the subset prompt is reached, the result of the `MultiSelect` prompt
(each `.prompt()?` may fail). -/
structure OperatorInput where
  answerResult : Except Unit PromptAnswer
  selectionResult : Except Unit (List String)

/-- The file-system state the deletion loop sees: whether a path still
exists and whether `fs::remove_dir_all` on it succeeds. -/
structure FileSystem where
  existsOnDisk : String → Bool
  removeOk : String → Bool

/-- Events of the deletion loop, in order: the "Deleting" line printed for
every item, the actual `remove_dir_all` call, and the failure report. -/
inductive DeleteEvent
  | deleting (path : String)
  | removeAttempt (path : String)
  | failedToDelete (path : String)
deriving DecidableEq

/-- The deletion loop of main.rs lines 162-176: for each path print
"Deleting", call `remove_dir_all` only if the path still exists, report an
individual failure and continue with the remaining items. -/
def runDeletion (fsm : FileSystem) : List String → List DeleteEvent
  | [] => []
  | p :: rest =>
    (if fsm.existsOnDisk p then
      (if fsm.removeOk p then [DeleteEvent.deleting p, DeleteEvent.removeAttempt p]
       else [DeleteEvent.deleting p, DeleteEvent.removeAttempt p, DeleteEvent.failedToDelete p])
     else [DeleteEvent.deleting p]) ++ runDeletion fsm rest

/-- main.rs lines 105-177, after the scan produced `repositories`: an empty
clean set exits immediately; otherwise the action prompt runs (its failure
aborts), Cancel exits without deleting, Delete-all takes the whole list,
Select runs the subset prompt, an empty final subset exits without deleting,
and otherwise the deletion loop runs.  The result is the list of deletion
events (`.ok` is a zero exit code).  Paths are modelled as `String`, so the
UTF-8 validity check of lines 131-138 never fires here. -/
def afterScan (repositories : List String) (inp : OperatorInput) (fsm : FileSystem) :
    Except FatalError (List DeleteEvent) :=
  if repositories.isEmpty then .ok []
  else
    match inp.answerResult with
    | .error _ => .error .promptError
    | .ok ans =>
      if ans = .cancel then .ok []
      else
        match (if ans = .deleteAll then Except.ok repositories
               else
                 match inp.selectionResult with
                 | .error _ => .error ()
                 | .ok sel => .ok sel : Except Unit (List String)) with
        | .error _ => .error .promptError
        | .ok toDelete =>
          if toDelete.isEmpty then .ok []
          else .ok (runDeletion fsm toDelete)

/-- Everything `main` depends on: the root listing, the operator's prompt
input, and the file system the deletion loop acts on. -/
structure World where
  listing : Option (List Candidate)
  input : OperatorInput
  fsm : FileSystem

/-- The whole of `main`: scan, then the interactive/deletion phase. -/
def mainRun (w : World) : Except FatalError (List Msg × List String × List DeleteEvent) :=
  match mainScan w.listing with
  | .error e => .error e
  | .ok (msgs, repos) =>
    match afterScan repos w.input w.fsm with
    | .error e => .error e
    | .ok evs => .ok (msgs, repos, evs)

/-- The process exit code: `main` returns `anyhow::Result<()>`, so `.ok` is
exit code 0 and `.error` a non-zero exit. -/
def exitCode {α : Type} : Except FatalError α → Nat
  | .ok _ => 0
  | .error _ => 1

/-- A commit graph with no edges: every commit is a root. -/
def emptyGraph : CommitGraph :=
  ⟨fun _ => [], fun _ p hp => absurd hp (List.not_mem_nil p)⟩

/-- A repository on which every libgit2 call succeeds and that has no
branches at all: its revwalk is empty, so the program counts it clean. -/
def okRepoNoBranches : RepoState :=
  ⟨emptyGraph, .ok [], .ok (), .ok [], .ok [], fun _ => false⟩

/-- A repository whose `repo.statuses(...)` call fails. -/
def statusFailRepo : RepoState :=
  ⟨emptyGraph, .error .statusError, .ok (), .ok [], .ok [], fun _ => false⟩

/-- A repository with one working-tree change (a modified tracked file) and
no branches, hence an empty revwalk. -/
def dirtyNoCommitsRepo : RepoState :=
  ⟨emptyGraph, .ok [⟨256, some "file.txt"⟩], .ok (), .ok [], .ok [], fun _ => false⟩

/-- A repository with a clean working tree, one local branch whose tip is
commit 0, and no remote-tracking branches. -/
def aheadRepo : RepoState :=
  ⟨emptyGraph, .ok [], .ok (), .ok [Except.ok ⟨some 0⟩], .ok [], fun _ => false⟩

/-- A file system on which every path exists and every removal succeeds. -/
def fsmAllOk : FileSystem := ⟨fun _ => true, fun _ => true⟩

/-- A file system on which every path exists and every removal fails. -/
def fsmRemoveFails : FileSystem := ⟨fun _ => true, fun _ => false⟩

theorem Reaches_le {g : CommitGraph} {c x : Nat} (h : Reaches g c x) : x ≤ c := by
  induction h with
  | refl c => exact Nat.le_refl c
  | step c p x hp _ ih => exact Nat.le_trans ih (Nat.le_of_lt (g.parents_lt c p hp))

theorem reachesFuel_complete {g : CommitGraph} {c x : Nat} (h : Reaches g c x) :
    ∀ f : Nat, c ≤ f → reachesFuel g f c x = true := by
  induction h with
  | refl c =>
    intro f _
    cases f <;> simp [reachesFuel]
  | step c p x hp _ ih =>
    intro f hf
    have hpc : p < c := g.parents_lt c p hp
    obtain ⟨f', rfl⟩ : ∃ f', f = f' + 1 := ⟨f - 1, by omega⟩
    simp only [reachesFuel, Bool.or_eq_true, List.any_eq_true]
    exact Or.inr ⟨p, hp, ih f' (by omega)⟩

theorem reachesFuel_sound {g : CommitGraph} :
    ∀ (f : Nat) (c x : Nat), reachesFuel g f c x = true → Reaches g c x := by
  intro f
  induction f with
  | zero =>
    intro c x h
    simp only [reachesFuel, beq_iff_eq] at h
    exact h ▸ Reaches.refl c
  | succ f ih =>
    intro c x h
    simp only [reachesFuel, Bool.or_eq_true, beq_iff_eq, List.any_eq_true] at h
    rcases h with h | ⟨p, hp, hf⟩
    · exact h ▸ Reaches.refl c
    · exact Reaches.step c p x hp (ih p x hf)

theorem reaches_iff {g : CommitGraph} {c x : Nat} :
    reaches g c x = true ↔ Reaches g c x :=
  ⟨reachesFuel_sound c c x, fun h => reachesFuel_complete h c (Nat.le_refl c)⟩

theorem le_maxTip {l : List Nat} {t : Nat} (h : t ∈ l) : t ≤ maxTip l := by
  induction l with
  | nil => cases h
  | cons a l ih =>
    rcases List.mem_cons.mp h with rfl | h
    · exact Nat.le_max_left _ _
    · exact Nat.le_trans (ih h) (Nat.le_max_right _ _)

theorem revwalkOutput_ne_nil_iff (g : CommitGraph) (push hide : List Nat) :
    revwalkOutput g push hide ≠ [] ↔
      ∃ c : Nat, (∃ t ∈ push, Reaches g t c) ∧ ¬ ∃ t ∈ hide, Reaches g t c := by
  constructor
  · intro h
    obtain ⟨x, hx⟩ := List.exists_mem_of_ne_nil _ h
    have hmem := List.mem_filter.mp hx
    have hcond := hmem.2
    simp only [Bool.and_eq_true, Bool.not_eq_true', List.any_eq_true] at hcond
    obtain ⟨⟨t, ht, hr⟩, hn⟩ := hcond
    refine ⟨x, ⟨t, ht, reaches_iff.mp hr⟩, ?_⟩
    intro ⟨t', ht', hr'⟩
    have : reaches g t' x = true := reaches_iff.mpr hr'
    have hfalse : hide.any (fun t => reaches g t x) = true :=
      List.any_eq_true.mpr ⟨t', ht', this⟩
    rw [hn] at hfalse
    exact Bool.false_ne_true hfalse
  · intro ⟨c, ⟨t, ht, hr⟩, hn⟩
    have hle : c ≤ t := Reaches_le hr
    have hrange : c ∈ List.range (maxTip push + 1) :=
      List.mem_range.mpr (Nat.lt_succ_of_le (Nat.le_trans hle (le_maxTip ht)))
    have hcond : (push.any (fun t => reaches g t c) &&
        !(hide.any (fun t => reaches g t c))) = true := by
      simp only [Bool.and_eq_true, Bool.not_eq_true', List.any_eq_true]
      refine ⟨⟨t, ht, reaches_iff.mpr hr⟩, ?_⟩
      by_contra habs
      rw [Bool.not_eq_false, List.any_eq_true] at habs
      obtain ⟨t', ht', hr'⟩ := habs
      exact hn ⟨t', ht', reaches_iff.mp hr'⟩
    exact List.ne_nil_of_mem (List.mem_filter.mpr ⟨hrange, hcond⟩)

theorem addTips_ok_mem {corrupt : Nat → Bool} :
    ∀ {items : List (Except GitError Branch)} {l : List Nat},
      addTips corrupt items = .ok l →
      ∀ t : Nat, (t ∈ l ↔ ∃ b : Branch, Except.ok b ∈ items ∧ b.target = some t) := by
  intro items
  induction items with
  | nil =>
    intro l h t
    simp only [addTips, Except.ok.injEq] at h
    subst h
    simp
  | cons item rest ih =>
    intro l h t
    cases item with
    | error e => simp [addTips] at h
    | ok b =>
      cases hb : b.target with
      | none =>
        simp only [addTips, hb] at h
        rw [ih h t]
        constructor
        · rintro ⟨b', hb', ht'⟩
          exact ⟨b', List.mem_cons_of_mem _ hb', ht'⟩
        · rintro ⟨b', hb', ht'⟩
          rcases List.mem_cons.mp hb' with heq | hmem
          · cases Except.ok.inj heq
            rw [hb] at ht'
            cases ht'
          · exact ⟨b', hmem, ht'⟩
      | some oid =>
        simp only [addTips, hb] at h
        cases hcor : corrupt oid with
        | true => rw [hcor] at h; simp at h
        | false =>
          rw [hcor] at h
          simp only [Bool.false_eq_true, if_false] at h
          cases hrest : addTips corrupt rest with
          | error e => rw [hrest] at h; simp at h
          | ok l' =>
            rw [hrest] at h
            simp only [Except.ok.injEq] at h
            subst h
            rw [List.mem_cons, ih hrest t]
            constructor
            · rintro (rfl | ⟨b', hb', ht'⟩)
              · exact ⟨b, List.mem_cons_self _ _, hb⟩
              · exact ⟨b', List.mem_cons_of_mem _ hb', ht'⟩
            · rintro ⟨b', hb', ht'⟩
              rcases List.mem_cons.mp hb' with heq | hmem
              · cases Except.ok.inj heq
                rw [hb] at ht'
                exact Or.inl (Option.some.inj ht').symm
              · exact Or.inr ⟨b', hmem, ht'⟩

theorem tips_exists_iff {g : CommitGraph} {corrupt : Nat → Bool}
    {items : List (Except GitError Branch)} {l : List Nat}
    (h : addTips corrupt items = .ok l) (c : Nat) :
    (∃ t ∈ l, Reaches g t c) ↔
      ∃ b : Branch, Except.ok b ∈ items ∧ ∃ t, b.target = some t ∧ Reaches g t c := by
  constructor
  · rintro ⟨t, ht, hr⟩
    obtain ⟨b, hbmem, hbt⟩ := (addTips_ok_mem h t).mp ht
    exact ⟨b, hbmem, t, hbt, hr⟩
  · rintro ⟨b, hbmem, t, hbt, hr⟩
    exact ⟨t, (addTips_ok_mem h t).mpr ⟨b, hbmem, hbt⟩, hr⟩

theorem addTips_skip_none (corrupt : Nat → Bool)
    (pre post : List (Except GitError Branch)) :
    addTips corrupt (pre ++ Except.ok ⟨none⟩ :: post) = addTips corrupt (pre ++ post) := by
  induction pre with
  | nil => simp [addTips]
  | cons item rest ih =>
    cases item with
    | error e => simp [addTips]
    | ok b =>
      cases hb : b.target with
      | none => simpa [addTips, hb] using ih
      | some oid => simp [addTips, hb, ih]

theorem revwalkOutput_nil_push (g : CommitGraph) (hide : List Nat) :
    revwalkOutput g [] hide = [] := by
  simp [revwalkOutput]

theorem evalOpenedRepo_ok_inv {p : String} {r : RepoState} {msgs : List Msg} {o : EvalOutcome}
    (h : evalOpenedRepo p r = .ok (msgs, o)) :
    ∃ (statuses : List StatusEntry) (localItems : List (Except GitError Branch))
      (push : List Nat) (remoteItems : List (Except GitError Branch)) (hide : List Nat),
      r.statusesResult = .ok statuses ∧
      r.localBranchesResult = .ok localItems ∧
      addTips r.corrupt localItems = .ok push ∧
      r.remoteBranchesResult = .ok remoteItems ∧
      addTips r.corrupt remoteItems = .ok hide ∧
      msgs = [if statuses.isEmpty then Msg.noChangesIn p else Msg.thereAreChanges statuses] ∧
      ((revwalkOutput r.graph push hide = [] ∧ o = .clean) ∨
       (revwalkOutput r.graph push hide ≠ [] ∧ o = .hasUnpushedCommits)) := by
  unfold evalOpenedRepo at h
  cases hs : r.statusesResult with
  | error e => rw [hs] at h; dsimp only at h; cases h
  | ok statuses =>
    rw [hs] at h; dsimp only at h
    cases hv : r.revwalkResult with
    | error e => rw [hv] at h; dsimp only at h; cases h
    | ok u =>
      rw [hv] at h; dsimp only at h
      cases hl : r.localBranchesResult with
      | error e => rw [hl] at h; dsimp only at h; cases h
      | ok localItems =>
        rw [hl] at h; dsimp only at h
        cases hpush : addTips r.corrupt localItems with
        | error e => rw [hpush] at h; dsimp only at h; cases h
        | ok push =>
          rw [hpush] at h; dsimp only at h
          cases hm : r.remoteBranchesResult with
          | error e => rw [hm] at h; dsimp only at h; cases h
          | ok remoteItems =>
            rw [hm] at h; dsimp only at h
            cases hhide : addTips r.corrupt remoteItems with
            | error e => rw [hhide] at h; dsimp only at h; cases h
            | ok hide =>
              rw [hhide] at h; dsimp only at h
              refine ⟨statuses, localItems, push, remoteItems, hide,
                rfl, rfl, hpush, rfl, hhide, ?_⟩
              cases hw : revwalkOutput r.graph push hide with
              | nil =>
                rw [hw] at h
                simp only [Except.ok.injEq, Prod.mk.injEq] at h
                exact ⟨h.1.symm, Or.inl ⟨rfl, h.2.symm⟩⟩
              | cons oid tl =>
                rw [hw] at h
                dsimp only at h
                split at h
                · cases h
                · simp only [Except.ok.injEq, Prod.mk.injEq] at h
                  exact ⟨h.1.symm, Or.inr ⟨by simp, h.2.symm⟩⟩

theorem runDeletion_removeAttempt_mem {fsm : FileSystem} :
    ∀ {l : List String} {p : String},
      DeleteEvent.removeAttempt p ∈ runDeletion fsm l ↔
        p ∈ l ∧ fsm.existsOnDisk p = true := by
  intro l
  induction l with
  | nil => intro p; simp [runDeletion]
  | cons q rest ih =>
    intro p
    by_cases hpq : p = q
    · subst hpq
      cases hq : fsm.existsOnDisk p <;> cases hr : fsm.removeOk p <;>
        simp [runDeletion, hq, hr, ih]
    · cases hq : fsm.existsOnDisk q <;> cases hr : fsm.removeOk q <;>
        simp [runDeletion, hq, hr, ih, hpq]

theorem runDeletion_deleting_mem {fsm : FileSystem} :
    ∀ {l : List String} {p : String}, p ∈ l →
      DeleteEvent.deleting p ∈ runDeletion fsm l := by
  intro l
  induction l with
  | nil => intro p hp; cases hp
  | cons q rest ih =>
    intro p hp
    rcases List.mem_cons.mp hp with rfl | hp
    · cases hq : fsm.existsOnDisk p <;> cases hr : fsm.removeOk p <;>
        simp [runDeletion, hq, hr]
    · cases hq : fsm.existsOnDisk q <;> cases hr : fsm.removeOk q <;>
        simp [runDeletion, hq, hr, ih hp]

theorem runDeletion_failed_mem {fsm : FileSystem} :
    ∀ {l : List String} {p : String}, p ∈ l →
      fsm.existsOnDisk p = true → fsm.removeOk p = false →
      DeleteEvent.failedToDelete p ∈ runDeletion fsm l := by
  intro l
  induction l with
  | nil => intro p hp; cases hp
  | cons q rest ih =>
    intro p hp he hr
    rcases List.mem_cons.mp hp with rfl | hp
    · simp [runDeletion, he, hr]
    · cases hq : fsm.existsOnDisk q <;> cases hr2 : fsm.removeOk q <;>
        simp [runDeletion, hq, hr2, ih hp he hr]

/-- C1: the code violates the claimed clean-iff invariant.  A repository with
a non-empty working-tree status set (one modified file) and an empty revwalk
is evaluated to the clean verdict and pushed onto the deletable
`repositories` list; no working-tree-changes verdict exists in the code, the
status list is only printed. -/
theorem claim_C1 :
    evalOpenedRepo "dirty" dirtyNoCommitsRepo =
      .ok ([Msg.thereAreChanges [⟨256, some "file.txt"⟩]], .clean) ∧
    processCandidate (Candidate.repo "dirty" dirtyNoCommitsRepo) =
      .ok ([Msg.thereAreChanges [⟨256, some "file.txt"⟩],
            Msg.cleanRepositoryFound "dirty"], some "dirty") :=
  ⟨rfl, rfl⟩

/-- C2 counterexample: a failure inside the evaluation of one candidate (a
failing `repo.statuses` call) is NOT caught at the candidate boundary: the
whole scan aborts with that error, even though the next candidate on its own
would have been classified clean. -/
theorem claim_C2_counterexample :
    scanDirs [Candidate.repo "bad" statusFailRepo, Candidate.repo "good" okRepoNoBranches] =
      .error (.gitError .statusError) ∧
    processCandidate (Candidate.repo "good" okRepoNoBranches) =
      .ok ([Msg.noChangesIn "good", Msg.cleanRepositoryFound "good"], some "good") :=
  ⟨rfl, rfl⟩

/-- C2 (amended): any failure arising during the evaluation of one candidate
working copy (status computation, branch enumeration, per-branch resolution,
pushing/hiding a tip, or walking the commit graph) propagates out of the scan
loop through the `?` operator and aborts the overall scan with that error;
subsequent candidates are not evaluated (the result is independent of
`rest`). -/
theorem claim_C2 :
    ∀ (p : String) (r : RepoState) (rest : List Candidate) (e : GitError),
      evalOpenedRepo p r = .error e →
      scanDirs (Candidate.repo p r :: rest) = .error (.gitError e) := by
  intro p r rest e h
  simp only [scanDirs, processCandidate, h]

/-- C2 witness: the amended claim at a concrete input. -/
theorem claim_C2_witness :
    scanDirs [Candidate.repo "bad" statusFailRepo] = .error (.gitError .statusError) :=
  claim_C2 "bad" statusFailRepo [] .statusError rfl

/-- C3: for a working copy with an empty working-tree status set whose
evaluation succeeds, the verdict is HasUnpushedCommits if and only if some
commit is reachable (itself or a transitive ancestor) from the resolved tip
of some local branch and not reachable from the resolved tip of any
remote-tracking branch. -/
theorem claim_C3 :
    ∀ (p : String) (r : RepoState)
      (localItems remoteItems : List (Except GitError Branch))
      (msgs : List Msg) (o : EvalOutcome),
      r.statusesResult = .ok [] →
      r.localBranchesResult = .ok localItems →
      r.remoteBranchesResult = .ok remoteItems →
      evalOpenedRepo p r = .ok (msgs, o) →
      (o = .hasUnpushedCommits ↔
        ∃ c : Nat,
          (∃ b : Branch, Except.ok b ∈ localItems ∧
            ∃ t, b.target = some t ∧ Reaches r.graph t c) ∧
          ¬ ∃ b : Branch, Except.ok b ∈ remoteItems ∧
            ∃ t, b.target = some t ∧ Reaches r.graph t c) := by
  intro p r localItems remoteItems msgs o _ hl hm he
  obtain ⟨sts, li, push, ri, hide, h1, h2, h3, h4, h5, hmsgs, hdisj⟩ :=
    evalOpenedRepo_ok_inv he
  rw [hl] at h2
  injection h2 with h2
  subst h2
  rw [hm] at h4
  injection h4 with h4
  subst h4
  have hiff : (o = EvalOutcome.hasUnpushedCommits) ↔
      revwalkOutput r.graph push hide ≠ [] := by
    rcases hdisj with ⟨hw, rfl⟩ | ⟨hw, rfl⟩
    · simp [hw]
    · simp [hw]
  rw [hiff, revwalkOutput_ne_nil_iff]
  apply exists_congr
  intro c
  rw [tips_exists_iff h3 c, tips_exists_iff h5 c]

/-- C3 witness: the right-hand side of the equivalence, obtained from the
theorem at a concrete repository that is one commit ahead with no remote
branches. -/
theorem claim_C3_witness :
    ∃ c : Nat,
      (∃ b : Branch, Except.ok b ∈ ([Except.ok ⟨some 0⟩] : List (Except GitError Branch)) ∧
        ∃ t, b.target = some t ∧ Reaches aheadRepo.graph t c) ∧
      ¬ ∃ b : Branch, Except.ok b ∈ ([] : List (Except GitError Branch)) ∧
        ∃ t, b.target = some t ∧ Reaches aheadRepo.graph t c :=
  (claim_C3 "a" aheadRepo [Except.ok ⟨some 0⟩] [] [Msg.noChangesIn "a"]
    .hasUnpushedCommits rfl rfl rfl rfl).mp rfl

/-- C4: a working copy with no remote-tracking branches at all and at least
one local branch whose tip resolves to a commit is, whenever its evaluation
succeeds, classified HasUnpushedCommits (nothing is hidden from the walk, so
the tip itself is yielded). -/
theorem claim_C4 :
    ∀ (p : String) (r : RepoState) (localItems : List (Except GitError Branch))
      (b : Branch) (t : Nat) (msgs : List Msg) (o : EvalOutcome),
      r.remoteBranchesResult = .ok [] →
      r.localBranchesResult = .ok localItems →
      Except.ok b ∈ localItems →
      b.target = some t →
      evalOpenedRepo p r = .ok (msgs, o) →
      evalOpenedRepo p r = .ok (msgs, .hasUnpushedCommits) := by
  intro p r localItems b t msgs o hrem hloc hb ht he
  obtain ⟨sts, li, push, ri, hide, h1, h2, h3, h4, h5, hmsgs, hdisj⟩ :=
    evalOpenedRepo_ok_inv he
  rw [hloc] at h2
  injection h2 with h2
  subst h2
  rw [hrem] at h4
  injection h4 with h4
  subst h4
  simp only [addTips, Except.ok.injEq] at h5
  subst h5
  have htpush : t ∈ push := (addTips_ok_mem h3 t).mpr ⟨b, hb, ht⟩
  have hne : revwalkOutput r.graph push [] ≠ [] :=
    (revwalkOutput_ne_nil_iff r.graph push []).mpr
      ⟨t, ⟨t, htpush, Reaches.refl t⟩,
        by rintro ⟨t', ht', _⟩; exact absurd ht' (List.not_mem_nil t')⟩
  rcases hdisj with ⟨hw, rfl⟩ | ⟨hw, rfl⟩
  · exact absurd hw hne
  · exact he

/-- C4 witness: the theorem at a concrete one-commit-ahead repository. -/
theorem claim_C4_witness :
    evalOpenedRepo "a" aheadRepo = .ok ([Msg.noChangesIn "a"], .hasUnpushedCommits) :=
  claim_C4 "a" aheadRepo [Except.ok ⟨some 0⟩] ⟨some 0⟩ 0 [Msg.noChangesIn "a"]
    .hasUnpushedCommits rfl rfl (List.mem_singleton.mpr rfl) rfl rfl

/-- C5: a working copy with zero local branches whose evaluation succeeds is
always classified clean by the unpushed-commit check: the walk is seeded
with nothing and yields no commits. -/
theorem claim_C5 :
    ∀ (p : String) (r : RepoState) (msgs : List Msg) (o : EvalOutcome),
      r.localBranchesResult = .ok [] →
      evalOpenedRepo p r = .ok (msgs, o) →
      evalOpenedRepo p r = .ok (msgs, .clean) := by
  intro p r msgs o hloc he
  obtain ⟨sts, li, push, ri, hide, h1, h2, h3, h4, h5, hmsgs, hdisj⟩ :=
    evalOpenedRepo_ok_inv he
  rw [hloc] at h2
  injection h2 with h2
  subst h2
  simp only [addTips, Except.ok.injEq] at h3
  subst h3
  rcases hdisj with ⟨hw, rfl⟩ | ⟨hw, rfl⟩
  · exact he
  · exact absurd (revwalkOutput_nil_push r.graph hide) hw

/-- C5 witness: the theorem at a concrete branch-less repository. -/
theorem claim_C5_witness :
    evalOpenedRepo "good" okRepoNoBranches = .ok ([Msg.noChangesIn "good"], .clean) :=
  claim_C5 "good" okRepoNoBranches [Msg.noChangesIn "good"] .clean rfl rfl

/-- C6: a child directory that cannot be opened as a repository produces the
"is not a git repository" notice, is not added to the clean set, and the
scan continues with the remaining candidates unchanged; a failure to list
the root directory itself is fatal and aborts the scan. -/
theorem claim_C6 :
    (∀ (p : String) (rest : List Candidate) (msgs : List Msg) (cleans : List String),
        scanDirs rest = .ok (msgs, cleans) →
        scanDirs (Candidate.openFails p :: rest) =
          .ok (Msg.notAGitRepo p :: msgs, cleans)) ∧
    mainScan none = .error .rootListingError := by
  constructor
  · intro p rest msgs cleans h
    simp [scanDirs, processCandidate, h]
  · rfl

/-- C6 witness: the theorem at a concrete one-element scan. -/
theorem claim_C6_witness :
    scanDirs [Candidate.openFails "x"] = .ok ([Msg.notAGitRepo "x"], []) :=
  claim_C6.1 "x" [] [] [] rfl

/-- C7: cancelling at the action prompt, or submitting an empty subset from
the selection prompt, terminates the program with exit code 0 and performs
no deletion at all (no deletion event is produced for any path). -/
theorem claim_C7 :
    ∀ (repositories : List String) (inp : OperatorInput) (fsm : FileSystem),
      (inp.answerResult = .ok .cancel →
        afterScan repositories inp fsm = .ok [] ∧
        exitCode (afterScan repositories inp fsm) = 0) ∧
      (inp.answerResult = .ok .selectRepos → inp.selectionResult = .ok [] →
        afterScan repositories inp fsm = .ok [] ∧
        exitCode (afterScan repositories inp fsm) = 0) := by
  intro repositories inp fsm
  constructor
  · intro h
    have hres : afterScan repositories inp fsm = .ok [] := by
      unfold afterScan
      by_cases hr : repositories.isEmpty <;> simp [hr, h]
    exact ⟨hres, by rw [hres]; rfl⟩
  · intro h hsel
    have hres : afterScan repositories inp fsm = .ok [] := by
      unfold afterScan
      by_cases hr : repositories.isEmpty <;> simp [hr, h, hsel]
    exact ⟨hres, by rw [hres]; rfl⟩

/-- C7 witness: the theorem at concrete inputs, for both the cancel and the
empty-selection cases. -/
theorem claim_C7_witness :
    afterScan ["a"] ⟨.ok .cancel, .ok []⟩ fsmAllOk = .ok [] ∧
    afterScan ["a"] ⟨.ok .selectRepos, .ok []⟩ fsmAllOk = .ok [] :=
  ⟨((claim_C7 ["a"] ⟨.ok .cancel, .ok []⟩ fsmAllOk).1 rfl).1,
   ((claim_C7 ["a"] ⟨.ok .selectRepos, .ok []⟩ fsmAllOk).2 rfl rfl).1⟩

/-- C8: during deletion, a removal is attempted on a path exactly when that
path is in the final list and still exists on disk; every listed path is
processed (its "Deleting" line appears) even when other removals fail; an
individual failure is reported for its item; and the delete-all batch runs
to completion with a normal (ok) exit. -/
theorem claim_C8 :
    ∀ (fsm : FileSystem) (toDelete : List String) (p : String),
      (DeleteEvent.removeAttempt p ∈ runDeletion fsm toDelete →
        p ∈ toDelete ∧ fsm.existsOnDisk p = true) ∧
      (p ∈ toDelete → fsm.existsOnDisk p = true →
        DeleteEvent.removeAttempt p ∈ runDeletion fsm toDelete) ∧
      (p ∈ toDelete → DeleteEvent.deleting p ∈ runDeletion fsm toDelete) ∧
      (p ∈ toDelete → fsm.existsOnDisk p = true → fsm.removeOk p = false →
        DeleteEvent.failedToDelete p ∈ runDeletion fsm toDelete) ∧
      (∀ inp : OperatorInput, inp.answerResult = .ok .deleteAll →
        afterScan toDelete inp fsm = .ok (runDeletion fsm toDelete)) := by
  intro fsm toDelete p
  refine ⟨fun h => runDeletion_removeAttempt_mem.mp h,
          fun h1 h2 => runDeletion_removeAttempt_mem.mpr ⟨h1, h2⟩,
          fun h1 => runDeletion_deleting_mem h1,
          fun h1 h2 h3 => runDeletion_failed_mem h1 h2 h3,
          ?_⟩
  intro inp hans
  cases toDelete with
  | nil => simp [afterScan, runDeletion]
  | cons q rest => simp [afterScan, hans]

/-- C8 witness: one failing and one succeeding item, both fully processed. -/
theorem claim_C8_witness :
    DeleteEvent.failedToDelete "a" ∈ runDeletion fsmRemoveFails ["a", "b"] ∧
    DeleteEvent.deleting "b" ∈ runDeletion fsmRemoveFails ["a", "b"] :=
  ⟨(claim_C8 fsmRemoveFails ["a", "b"] "a").2.2.2.1 (by simp) rfl rfl,
   (claim_C8 fsmRemoveFails ["a", "b"] "b").2.2.1 (by simp)⟩

/-- C9: a branch whose reference does not resolve to a commit id is skipped
silently during the unpushed-commit check: deleting such an item from the
local (or remote) branch list changes nothing in the evaluation result — it
seeds nothing, hides nothing, and produces no error and no message. -/
theorem claim_C9 :
    ∀ (p : String) (g : CommitGraph) (sres : Except GitError (List StatusEntry))
      (rres : Except GitError Unit)
      (other : Except GitError (List (Except GitError Branch)))
      (corrupt : Nat → Bool) (pre post : List (Except GitError Branch)),
      evalOpenedRepo p
          ⟨g, sres, rres, .ok (pre ++ Except.ok ⟨none⟩ :: post), other, corrupt⟩ =
        evalOpenedRepo p ⟨g, sres, rres, .ok (pre ++ post), other, corrupt⟩ ∧
      evalOpenedRepo p
          ⟨g, sres, rres, other, .ok (pre ++ Except.ok ⟨none⟩ :: post), corrupt⟩ =
        evalOpenedRepo p ⟨g, sres, rres, other, .ok (pre ++ post), corrupt⟩ := by
  intro p g sres rres other corrupt pre post
  refine ⟨?_, ?_⟩ <;>
    (dsimp only [evalOpenedRepo]
     rw [addTips_skip_none corrupt pre post])

/-- C10: a failing `canonicalize()` on a single candidate is not a
per-candidate recoverable skip: the error propagates out of the scan loop,
the whole run aborts with a non-zero exit, and no subsequent candidate is
evaluated (the result does not depend on the remaining candidates). -/
theorem claim_C10 :
    ∀ (pre : List Candidate) (ioMsg : String) (rest : List Candidate),
      (∀ c ∈ pre, ∃ v, processCandidate c = .ok v) →
      scanDirs (pre ++ Candidate.canonicalizeFails ioMsg :: rest) =
        .error .canonicalizeError ∧
      mainScan (some (pre ++ Candidate.canonicalizeFails ioMsg :: rest)) =
        .error (.scanError .canonicalizeError) ∧
      ∀ (inp : OperatorInput) (fsm : FileSystem),
        exitCode (mainRun
          ⟨some (pre ++ Candidate.canonicalizeFails ioMsg :: rest), inp, fsm⟩) = 1 := by
  intro pre ioMsg rest h
  have hscan : ∀ pre2 : List Candidate,
      (∀ c ∈ pre2, ∃ v, processCandidate c = .ok v) →
      scanDirs (pre2 ++ Candidate.canonicalizeFails ioMsg :: rest) =
        .error .canonicalizeError := by
    intro pre2
    induction pre2 with
    | nil => intro _; simp [scanDirs, processCandidate]
    | cons c pre2 ih =>
      intro h2
      obtain ⟨v, hv⟩ := h2 c (List.mem_cons_self c pre2)
      obtain ⟨vm, vc⟩ := v
      have ih' := ih (fun c' hc' => h2 c' (List.mem_cons_of_mem c hc'))
      simp only [List.cons_append, scanDirs, hv, List.append_eq, ih']
  refine ⟨hscan pre h, ?_, ?_⟩
  · simp [mainScan, hscan pre h]
  · intro inp fsm
    simp [mainRun, mainScan, hscan pre h, exitCode]

/-- C10 witness: a canonicalize failure in the middle of a concrete
candidate list aborts the scan. -/
theorem claim_C10_witness :
    scanDirs [Candidate.notADir, Candidate.canonicalizeFails "io", Candidate.openFails "z"] =
      .error .canonicalizeError :=
  (claim_C10 [Candidate.notADir] "io" [Candidate.openFails "z"]
    (by
      intro c hc
      rw [List.mem_singleton] at hc
      subst hc
      exact ⟨([], none), rfl⟩)).1

end DelStall
